import Mathlib

/-!
A shallow embedding of the OCR field-extraction engine of the repository
(component `ImageTextExtractor`, function `extractFieldValue` together with
the line normalization, the `fields` record assembly and the `fullText`
summary), with theorems settling the specification claims.

JavaScript strings are modelled as Lean `String`s (lists of characters);
`String.prototype.trim` is modelled over the common whitespace characters,
`toLowerCase` by `Char.toLower` (ASCII case folding, which agrees with
JavaScript on the ASCII patterns the engine uses), and
`line.replace(new RegExp(pattern, "gi"), "")` as global leftmost
case-insensitive removal of the literal pattern text (exact for patterns
free of regex metacharacters, as all configured patterns are).
-/

namespace OCRExtract

/-- Whitespace characters removed by `String.prototype.trim`. -/
def isWsChar (c : Char) : Bool :=
  c == ' ' || c == '\t' || c == '\n' || c == '\r' || c == '\x0b' || c == '\x0c'

/-- The punctuation characters removed by `.replace(/[:=\-|]/g, "")`. -/
def isPunctChar (c : Char) : Bool :=
  c == ':' || c == '=' || c == '-' || c == '|'

/-- Trim of a character list: drop whitespace from both ends. -/
def trimChars (l : List Char) : List Char :=
  ((l.dropWhile isWsChar).reverse.dropWhile isWsChar).reverse

/-- Model of `s.trim()`. -/
def trimStr (s : String) : String :=
  String.mk (trimChars s.data)

/-- Model of `s.toLowerCase()` (ASCII case folding). -/
def lowerStr (s : String) : String :=
  String.mk (s.data.map Char.toLower)

/-- Case-sensitive prefix test on character lists. -/
def isPrefixOfB : List Char → List Char → Bool
  | [], _ => true
  | _ :: _, [] => false
  | a :: as, b :: bs => (a == b) && isPrefixOfB as bs

/-- Substring containment on character lists (`hay` contains `needle`). -/
def containsSub (needle : List Char) : List Char → Bool
  | [] => needle.isEmpty
  | c :: rest => isPrefixOfB needle (c :: rest) || containsSub needle rest

/-- Model of `hay.includes(pat)`. -/
def strIncludes (hay pat : String) : Bool :=
  containsSub pat.data hay.data

/-- Case-insensitive prefix test (the `i` regex flag). -/
def ciPrefix : List Char → List Char → Bool
  | [], _ => true
  | _ :: _, [] => false
  | a :: as, b :: bs => (a.toLower == b.toLower) && ciPrefix as bs

/-- Fuel-indexed scan for `removeAllCI` (structural recursion on the fuel;
every step consumes at least one character, so `l.length` fuel suffices). -/
def removeAllCIAux (pat : List Char) : Nat → List Char → List Char
  | _, [] => []
  | 0, l => l
  | fuel + 1, c :: rest =>
    if pat ≠ [] ∧ ciPrefix pat (c :: rest) then
      removeAllCIAux pat fuel (rest.drop (pat.length - 1))
    else
      c :: removeAllCIAux pat fuel rest

/-- Model of `s.replace(new RegExp(pat, "gi"), "")`: remove every leftmost
non-overlapping case-insensitive occurrence of the literal `pat`. -/
def removeAllCI (pat l : List Char) : List Char :=
  removeAllCIAux pat l.length l

/-- Model of `s.replace(/[:=\-|]/g, "")`. -/
def stripPunct (l : List Char) : List Char :=
  l.filter (fun c => !(isPunctChar c))

/-- One field configuration: a display key and its ordered alias patterns. -/
structure FieldSpec where
  key : String
  patterns : List String

/-- The hardcoded `importantFields` configuration. -/
def importantFields : List FieldSpec :=
  [ ⟨"Model Name", ["model name", "model", "product"]⟩,
    ⟨"Model Number", ["model number", "model no", "part number", "p/n"]⟩,
    ⟨"Serial Number", ["serial number", "serial no", "s/n", "sn"]⟩ ]

/-- Split a character list at newline characters (model of `text.split("\n")`). -/
def splitNl : List Char → List (List Char)
  | [] => [[]]
  | c :: rest =>
    if c = '\n' then [] :: splitNl rest
    else
      match splitNl rest with
      | [] => [[c]]
      | seg :: segs => (c :: seg) :: segs

/-- The line normalizer: `text.split("\n").map(l => l.trim()).filter(l => l.length > 0)`. -/
def linesOf (rawText : String) : List String :=
  (((splitNl rawText.data).map (fun seg => String.mk (trimChars seg))).filter
    (fun l => 0 < l.length))

/-- The inner pattern loop: the first pattern of the spec that the lowered
line includes (`lineLower.includes(pattern)`). -/
def matchPattern (spec : FieldSpec) (line : String) : Option String :=
  spec.patterns.find? (fun p => strIncludes (lowerStr line) p)

/-- The candidate value computed from the matching line and pattern:
`line.replace(new RegExp(pattern, "gi"), "").replace(/[:=\-|]/g, "").trim()`. -/
def candidateValue (pattern line : String) : String :=
  String.mk (trimChars (stripPunct (removeAllCI pattern.data line.data)))

/-- Model of `lines.indexOf(line)` (`-1` when absent, as in JavaScript). -/
def jsIndexOf (l : List String) (x : String) : Int :=
  match l.findIdx? (fun y => y == x) with
  | some i => (i : Int)
  | none => -1

/-- The outer line loop of `extractFieldValue`. `allLines` is the full list
(needed for `lines.indexOf` and the next-line fallback), `rest` the lines
still to scan. -/
def extractLoop (spec : FieldSpec) (allLines : List String) : List String → String
  | [] => "Not found"
  | line :: rest =>
    match matchPattern spec line with
    | some pattern =>
      let value := candidateValue pattern line
      if value = "" then
        let lineIndex := jsIndexOf allLines line
        if lineIndex < (allLines.length : Int) - 1 then
          trimStr (allLines.getD (lineIndex + 1).toNat "")
        else "Not found"
      else value
    | none => extractLoop spec allLines rest

/-- `extractFieldValue(fieldConfig, lines)`. -/
def extractFieldValue (spec : FieldSpec) (lines : List String) : String :=
  extractLoop spec lines lines

/-- JavaScript object assignment `r[k] = v`: update in place if the key
exists, otherwise append the new entry. -/
def recordInsert (r : List (String × String)) (k v : String) : List (String × String) :=
  if r.any (fun kv => kv.1 = k) then
    r.map (fun kv => if kv.1 = k then (k, v) else kv)
  else r ++ [(k, v)]

/-- The `fields` record built by `importantFields.forEach(...)`. -/
def fieldsOf (specs : List FieldSpec) (lines : List String) : List (String × String) :=
  specs.foldl (fun r spec => recordInsert r spec.key (extractFieldValue spec lines)) []

/-- JavaScript record read `r[k]` (absent keys render as `"undefined"`). -/
def recordGet (r : List (String × String)) (k : String) : String :=
  match r.find? (fun kv => kv.1 = k) with
  | some kv => kv.2
  | none => "undefined"

/-- The `fullText` summary: `importantFields.map(f => `${f.key}: ${fields[f.key]}`).join('\n')`. -/
def fullTextOf (specs : List FieldSpec) (lines : List String) : String :=
  String.intercalate "\n"
    (specs.map (fun spec => spec.key ++ ": " ++ recordGet (fieldsOf specs lines) spec.key))

/-- The whole extraction run on raw OCR text: normalized lines, then the
structured record and the summary string. -/
def extract (specs : List FieldSpec) (rawText : String) : List (String × String) × String :=
  (fieldsOf specs (linesOf rawText), fullTextOf specs (linesOf rawText))

end OCRExtract

namespace OCRExtract

/-! ### Helper lemmas about trimming -/

theorem dropWhile_dropWhile (p : Char → Bool) (l : List Char) :
    (l.dropWhile p).dropWhile p = l.dropWhile p := by
  induction l with
  | nil => rfl
  | cons c t ih =>
    cases hc : p c with
    | true => simp [List.dropWhile_cons, hc, ih]
    | false => simp [List.dropWhile_cons, hc]

theorem head?_dropWhile_not (p : Char → Bool) (l : List Char) (c : Char)
    (h : (l.dropWhile p).head? = some c) : p c = false := by
  induction l with
  | nil => simp at h
  | cons a t ih =>
    cases ha : p a with
    | true =>
      rw [List.dropWhile_cons, if_pos ha] at h
      exact ih h
    | false =>
      rw [List.dropWhile_cons, if_neg (by simp [ha])] at h
      simp at h
      exact h ▸ ha

theorem dropWhile_eq_self_of_head? (p : Char → Bool) (l : List Char)
    (h : ∀ c, l.head? = some c → p c = false) : l.dropWhile p = l := by
  cases l with
  | nil => rfl
  | cons a t =>
    rw [List.dropWhile_cons, if_neg]
    simp [h a rfl]

theorem getLast?_dropWhile (p : Char → Bool) (l : List Char)
    (h : l.dropWhile p ≠ []) : (l.dropWhile p).getLast? = l.getLast? := by
  induction l with
  | nil => simp at h
  | cons a t ih =>
    cases ha : p a with
    | true =>
      rw [List.dropWhile_cons, if_pos ha] at h ⊢
      have ht : t ≠ [] := by
        intro he
        exact h (by simp [he, List.dropWhile])
      cases t with
      | nil => exact absurd rfl ht
      | cons b t2 => rw [ih h, List.getLast?_cons_cons]
    | false =>
      rw [List.dropWhile_cons, if_neg (by simp [ha])]

theorem trimChars_idem (l : List Char) : trimChars (trimChars l) = trimChars l := by
  unfold trimChars
  set A := l.dropWhile isWsChar with hA
  set B := A.reverse.dropWhile isWsChar with hB
  have h1 : B.reverse.dropWhile isWsChar = B.reverse := by
    apply dropWhile_eq_self_of_head?
    intro c hc
    rw [List.head?_reverse] at hc
    have hBne : B ≠ [] := by
      intro he
      rw [he] at hc
      simp at hc
    rw [hB, getLast?_dropWhile _ _ (hB ▸ hBne), List.getLast?_reverse] at hc
    exact head?_dropWhile_not _ _ _ hc
  rw [h1, List.reverse_reverse, hB, dropWhile_dropWhile]

theorem trimStr_mk (l : List Char) : trimStr (String.mk l) = String.mk (trimChars l) := rfl

theorem trimStr_idem (s : String) : trimStr (trimStr s) = trimStr s := by
  cases s with
  | mk l => simp only [trimStr, trimChars_idem]

/-- trimming never leaves a leading or trailing whitespace character, and
never a punctuation character that was absent. -/
theorem mem_trimChars {c : Char} {l : List Char} (h : c ∈ trimChars l) : c ∈ l := by
  unfold trimChars at h
  rw [List.mem_reverse] at h
  have h2 := (List.dropWhile_sublist isWsChar).subset h
  rw [List.mem_reverse] at h2
  exact (List.dropWhile_sublist isWsChar).subset h2

/-! ### Helper lemmas about the matching loop -/

theorem find?_append_cons (pred : String → Bool) (ps1 : List String) (p : String)
    (ps2 : List String) (h1 : ∀ q ∈ ps1, pred q = false) (hp : pred p = true) :
    (ps1 ++ p :: ps2).find? pred = some p := by
  induction ps1 with
  | nil => simp [List.find?_cons, hp]
  | cons q qs ih =>
    have hq : pred q = false := h1 q (by simp)
    simp only [List.cons_append, List.find?_cons, hq]
    exact ih (fun r hr => h1 r (by simp [hr]))

theorem findIdx?_append_cons_self (pre : List String) (x : String)
    (post : List String) (hx : x ∉ pre) :
    (pre ++ x :: post).findIdx? (fun y => y == x) = some pre.length := by
  induction pre with
  | nil => simp [List.findIdx?_cons]
  | cons a t ih =>
    have ha : (a == x) = false := by
      simp only [beq_eq_false_iff_ne, ne_eq]
      intro he
      exact hx (by simp [he])
    have ht : x ∉ t := fun hm => hx (by simp [hm])
    simp only [List.cons_append, List.findIdx?_cons, ha]
    rw [if_neg (by simp), List.findIdx?_succ, ih ht]
    simp

theorem jsIndexOf_append_cons_self (pre : List String) (x : String)
    (post : List String) (hx : x ∉ pre) :
    jsIndexOf (pre ++ x :: post) x = (pre.length : Int) := by
  unfold jsIndexOf
  rw [findIdx?_append_cons_self pre x post hx]

theorem jsIndexOf_ge_neg_one (l : List String) (x : String) :
    -1 ≤ jsIndexOf l x := by
  unfold jsIndexOf
  cases h : l.findIdx? (fun y => y == x) with
  | none => simp
  | some i =>
    simp only []
    omega

theorem extractLoop_skip (spec : FieldSpec) (all : List String) (pre rest : List String)
    (h : ∀ x ∈ pre, matchPattern spec x = none) :
    extractLoop spec all (pre ++ rest) = extractLoop spec all rest := by
  induction pre with
  | nil => rfl
  | cons a t ih =>
    have ha : matchPattern spec a = none := h a (by simp)
    simp only [List.cons_append, extractLoop, ha]
    exact ih (fun x hx => h x (by simp [hx]))

theorem extractLoop_none (spec : FieldSpec) (all : List String) (rest : List String)
    (h : ∀ x ∈ rest, matchPattern spec x = none) :
    extractLoop spec all rest = "Not found" := by
  have := extractLoop_skip spec all rest [] h
  simpa using this

/-- The central decomposition: when every line before `l` matches no pattern
and `l` matches pattern `p`, the extraction result is determined by the
candidate value of `(p, l)` and, on the empty-candidate fallback, by the
line immediately after `l`. -/
theorem extractFieldValue_decomp (spec : FieldSpec) (pre : List String)
    (l : String) (post : List String) (p : String)
    (hpre : ∀ x ∈ pre, matchPattern spec x = none)
    (hl : matchPattern spec l = some p) :
    extractFieldValue spec (pre ++ l :: post) =
      if candidateValue p l = "" then
        (match post with
         | [] => "Not found"
         | next :: _ => trimStr next)
      else candidateValue p l := by
  have hlpre : l ∉ pre := by
    intro hm
    rw [hpre l hm] at hl
    exact Option.noConfusion hl
  unfold extractFieldValue
  rw [extractLoop_skip spec _ pre (l :: post) hpre]
  simp only [extractLoop, hl]
  by_cases hv : candidateValue p l = ""
  · rw [if_pos hv, if_pos hv]
    rw [jsIndexOf_append_cons_self pre l post hlpre]
    cases post with
    | nil =>
      rw [if_neg]
      simp only [List.length_append, List.length_cons, List.length_nil]
      push_cast
      omega
    | cons next rest2 =>
      rw [if_pos]
      · have hidx : ((pre.length : Int) + 1).toNat = pre.length + 1 := by omega
        rw [hidx, List.getD_eq_getElem?_getD,
          List.getElem?_append_right (by omega : pre.length ≤ pre.length + 1)]
        simp
      · simp only [List.length_append, List.length_cons]
        push_cast
        omega
  · rw [if_neg hv, if_neg hv]

/-- Case analysis on the result of the scanning loop: it is the sentinel, a
non-empty candidate value of some matched line, or the trim of a line of
`all` (the next-line fallback). -/
theorem extractLoop_cases (spec : FieldSpec) (all : List String) (rest : List String) :
    extractLoop spec all rest = "Not found" ∨
    (∃ p l, matchPattern spec l = some p ∧ candidateValue p l ≠ "" ∧
      extractLoop spec all rest = candidateValue p l) ∨
    (∃ next ∈ all, extractLoop spec all rest = trimStr next) := by
  induction rest with
  | nil => exact Or.inl rfl
  | cons line rest ih =>
    cases hm : matchPattern spec line with
    | none =>
      simpa only [extractLoop, hm] using ih
    | some p =>
      by_cases hv : candidateValue p line = ""
      · by_cases hidx : jsIndexOf all line < (all.length : Int) - 1
        · refine Or.inr (Or.inr ⟨all.getD (jsIndexOf all line + 1).toNat "", ?_, ?_⟩)
          · have hge := jsIndexOf_ge_neg_one all line
            have hlt : (jsIndexOf all line + 1).toNat < all.length := by omega
            rw [List.getD_eq_getElem all "" hlt]
            exact List.getElem_mem hlt
          · simp only [extractLoop, hm, if_pos hv, if_pos hidx]
        · refine Or.inl ?_
          simp only [extractLoop, hm, if_pos hv, if_neg hidx]
      · refine Or.inr (Or.inl ⟨p, line, hm, hv, ?_⟩)
        simp only [extractLoop, hm, if_neg hv]

/-! ### Helper lemmas about the record assembly -/

theorem foldl_recordInsert (lines : List String) : ∀ (specs : List FieldSpec)
    (acc : List (String × String)),
    (∀ s ∈ specs, ∀ kv ∈ acc, kv.1 ≠ s.key) →
    (specs.map FieldSpec.key).Nodup →
    specs.foldl (fun r spec => recordInsert r spec.key (extractFieldValue spec lines)) acc
      = acc ++ specs.map (fun s => (s.key, extractFieldValue s lines)) := by
  intro specs
  induction specs with
  | nil =>
    intro acc _ _
    simp
  | cons s rest ih =>
    intro acc hdisj hnd
    rw [List.foldl_cons]
    have hins : recordInsert acc s.key (extractFieldValue s lines)
        = acc ++ [(s.key, extractFieldValue s lines)] := by
      unfold recordInsert
      rw [if_neg]
      intro hany
      rw [List.any_eq_true] at hany
      obtain ⟨kv, hkv, hk⟩ := hany
      exact hdisj s (by simp) kv hkv (by simpa using hk)
    rw [List.map_cons, List.nodup_cons] at hnd
    rw [hins, ih (acc ++ [(s.key, extractFieldValue s lines)]) ?_ hnd.2]
    · simp
    · intro s' hs' kv hkv
      rcases List.mem_append.mp hkv with hkv | hkv
      · exact hdisj s' (by simp [hs']) kv hkv
      · have hkv2 : kv = (s.key, extractFieldValue s lines) := by simpa using hkv
        have hk1 : kv.1 = s.key := by rw [hkv2]
        rw [hk1]
        intro he
        exact hnd.1 (by rw [he]; exact List.mem_map_of_mem FieldSpec.key hs')

theorem fieldsOf_eq (specs : List FieldSpec) (lines : List String)
    (hnd : (specs.map FieldSpec.key).Nodup) :
    fieldsOf specs lines = specs.map (fun s => (s.key, extractFieldValue s lines)) := by
  unfold fieldsOf
  rw [foldl_recordInsert lines specs [] (by simp) hnd]
  simp

theorem recordGet_cons (k v k' : String) (r : List (String × String)) :
    recordGet ((k, v) :: r) k' = if k = k' then v else recordGet r k' := by
  unfold recordGet
  rw [List.find?_cons]
  by_cases h : k = k'
  · simp [h]
  · simp [h]

theorem recordGet_map_key (lines : List String) : ∀ (specs : List FieldSpec),
    (specs.map FieldSpec.key).Nodup → ∀ s ∈ specs,
    recordGet (specs.map (fun t => (t.key, extractFieldValue t lines))) s.key
      = extractFieldValue s lines := by
  intro specs
  induction specs with
  | nil =>
    intro _ s hs
    simp at hs
  | cons t rest ih =>
    intro hnd s hs
    rw [List.map_cons, recordGet_cons]
    rw [List.map_cons, List.nodup_cons] at hnd
    by_cases he : t.key = s.key
    · rw [if_pos he]
      rcases List.mem_cons.mp hs with hst | hsr
      · rw [hst]
      · exact absurd (he ▸ List.mem_map_of_mem FieldSpec.key hsr) hnd.1
    · rw [if_neg he]
      have hsr : s ∈ rest := by
        rcases List.mem_cons.mp hs with hst | hsr
        · exact absurd (by rw [hst]) he
        · exact hsr
      exact ih hnd.2 s hsr

/-! ### The claims -/

/-- C1 (counterexample): on Scenario A's lines, the Serial Number field does
NOT evaluate to `"99-AB-221"` — the global punctuation-stripping step also
removes the hyphens inside the value. -/
theorem claim1_counterexample :
    extractFieldValue ⟨"Serial Number", ["s/n"]⟩
      ["Model: Acme X200", "S/N: 99-AB-221"] ≠ "99-AB-221" := by decide

/-- C1 (amended): for the line sequence `["Model: Acme X200", "S/N: 99-AB-221"]`
and the two field specs `{Model Name, ["model"]}` and `{Serial Number, ["s/n"]}`,
the extraction returns Model Name = `"Acme X200"` and Serial Number =
`"99AB221"` (the hyphens of the serial are removed by the `[:=\-|]`
punctuation stripping). -/
theorem claim1_scenarioA :
    extractFieldValue ⟨"Model Name", ["model"]⟩
      ["Model: Acme X200", "S/N: 99-AB-221"] = "Acme X200" ∧
    extractFieldValue ⟨"Serial Number", ["s/n"]⟩
      ["Model: Acme X200", "S/N: 99-AB-221"] = "99AB221" := by decide

/-- C2: when the earliest matching line's candidate value is empty after
stripping, the field's value is the trim of the line immediately after the
matching line when one exists (also when the matching line's text recurs
later in the sequence), and the `"Not found"` sentinel when the matching
line is last. -/
theorem claim2_empty_candidate_fallback (spec : FieldSpec) (pre : List String)
    (l : String) (post : List String) (p : String)
    (hpre : ∀ x ∈ pre, matchPattern spec x = none)
    (hl : matchPattern spec l = some p)
    (hv : candidateValue p l = "") :
    extractFieldValue spec (pre ++ l :: post) =
      (match post with
       | [] => "Not found"
       | next :: _ => trimStr next) := by
  rw [extractFieldValue_decomp spec pre l post p hpre hl, if_pos hv]

/-- C2 (witness): Scenario B — lines `["Model Number", "MX-4410"]` with spec
`{Model Number, ["model number"]}` fall back to the next line `"MX-4410"`. -/
theorem claim2_witness :
    extractFieldValue ⟨"Model Number", ["model number"]⟩
      ["Model Number", "MX-4410"] = "MX-4410" := by
  have h := claim2_empty_candidate_fallback ⟨"Model Number", ["model number"]⟩
    [] "Model Number" ["MX-4410"] "model number" (by simp) (by decide) (by decide)
  exact h.trans (by decide)

/-- C3: the candidate value of the matching line and pattern is the line with
all case-insensitive occurrences of the pattern removed, then every
`:`, `=`, `-`, `|` removed, then trimmed; whenever it is non-empty, it is
the field's returned value. -/
theorem claim3_candidate_returned (spec : FieldSpec) (pre : List String)
    (l : String) (post : List String) (p : String)
    (hpre : ∀ x ∈ pre, matchPattern spec x = none)
    (hl : matchPattern spec l = some p)
    (hv : candidateValue p l ≠ "") :
    extractFieldValue spec (pre ++ l :: post) = candidateValue p l ∧
    candidateValue p l = String.mk (trimChars (stripPunct (removeAllCI p.data l.data))) := by
  refine ⟨?_, rfl⟩
  rw [extractFieldValue_decomp spec pre l post p hpre hl, if_neg hv]

/-- C3 (witness): the pattern `"model"` occurs twice in
`"Model model MX7"` and both occurrences are stripped, leaving `"MX7"`. -/
theorem claim3_witness :
    extractFieldValue ⟨"Model Name", ["model"]⟩ ["Model model MX7"] = "MX7" := by
  have h := claim3_candidate_returned ⟨"Model Name", ["model"]⟩
    [] "Model model MX7" [] "model" (by simp) (by decide) (by decide)
  exact h.1.trans (by decide)

/-- C4 (counterexample): a value produced by the next-line fallback is
returned as-is (trimmed only) and can contain the punctuation characters
that inline candidates never contain: here the found value `"A-B"` contains
`'-'`. -/
theorem claim4_counterexample :
    extractFieldValue ⟨"Model Number", ["model number"]⟩ ["Model Number", "A-B"] = "A-B" ∧
    ("A-B" : String) ≠ "Not found" ∧ '-' ∈ ("A-B" : String).data := by decide

/-- C4 (amended): over a valid line sequence (non-empty, trimmed lines),
every non-sentinel extraction value is non-empty and has no leading or
trailing whitespace; candidate values obtained by inline stripping contain
none of `:`, `=`, `-`, `|`, but fallback values may. -/
theorem claim4_found_invariant (spec : FieldSpec) (lin : List String)
    (h : ∀ l ∈ lin, l ≠ "" ∧ trimStr l = l)
    (hfound : extractFieldValue spec lin ≠ "Not found") :
    (extractFieldValue spec lin ≠ "" ∧
     trimStr (extractFieldValue spec lin) = extractFieldValue spec lin) ∧
    (∀ p l c, c ∈ (candidateValue p l).data → isPunctChar c = false) := by
  constructor
  · rcases extractLoop_cases spec lin lin with hc | ⟨p, l, _, hne, hc⟩ | ⟨next, hmem, hc⟩
    · exact absurd hc hfound
    · rw [extractFieldValue] at *
      rw [hc]
      refine ⟨hne, ?_⟩
      show trimStr (String.mk (trimChars (stripPunct (removeAllCI p.data l.data)))) = _
      rw [trimStr_mk, trimChars_idem]
      rfl
    · rw [extractFieldValue] at *
      rw [hc]
      obtain ⟨hne, htr⟩ := h next hmem
      rw [htr]
      exact ⟨hne, htr⟩
  · intro p l c hc
    have hc2 : c ∈ trimChars (stripPunct (removeAllCI p.data l.data)) := hc
    have hc3 := mem_trimChars hc2
    have := List.mem_filter.mp hc3
    simpa using this.2

/-- C4 (witness): on `["Model: X1"]` the Model Name value `"X1"` is
non-empty and trimmed. -/
theorem claim4_witness :
    (extractFieldValue ⟨"Model Name", ["model"]⟩ ["Model: X1"] ≠ "" ∧
     trimStr (extractFieldValue ⟨"Model Name", ["model"]⟩ ["Model: X1"]) =
       extractFieldValue ⟨"Model Name", ["model"]⟩ ["Model: X1"]) ∧
    (∀ p l c, c ∈ (candidateValue p l).data → isPunctChar c = false) :=
  claim4_found_invariant ⟨"Model Name", ["model"]⟩ ["Model: X1"]
    (by decide) (by decide)

/-- C5: first-match-wins over both loops — with no earlier line containing
any pattern, and `p` the first pattern (in configured order) contained in
line `l`, the matcher selects `l` and `p`, and the result is computed from
`l`, `p` and (only on the empty-candidate fallback) the line following `l`. -/
theorem claim5_first_match (spec : FieldSpec) (pre : List String) (l : String)
    (post : List String) (ps1 : List String) (p : String) (ps2 : List String)
    (hpat : spec.patterns = ps1 ++ p :: ps2)
    (h1 : ∀ q ∈ ps1, strIncludes (lowerStr l) q = false)
    (hp : strIncludes (lowerStr l) p = true)
    (hpre : ∀ x ∈ pre, ∀ q ∈ spec.patterns, strIncludes (lowerStr x) q = false) :
    matchPattern spec l = some p ∧
    extractFieldValue spec (pre ++ l :: post) =
      (if candidateValue p l = "" then
        (match post with
         | [] => "Not found"
         | next :: _ => trimStr next)
      else candidateValue p l) := by
  have hm : matchPattern spec l = some p := by
    unfold matchPattern
    rw [hpat]
    exact find?_append_cons _ ps1 p ps2 h1 hp
  refine ⟨hm, extractFieldValue_decomp spec pre l post p ?_ hm⟩
  intro x hx
  unfold matchPattern
  rw [List.find?_eq_none]
  intro q hq
  simp [hpre x hx q hq]

/-- C5 (witness): with patterns `["model name", "model"]`, the earliest
matching line `"Model Name: Alpha"` wins over the later line `"model B"`,
and `"model name"` wins over the also-contained pattern `"model"`. -/
theorem claim5_witness :
    matchPattern ⟨"Model Name", ["model name", "model"]⟩ "Model Name: Alpha"
      = some "model name" ∧
    extractFieldValue ⟨"Model Name", ["model name", "model"]⟩
      ["junk line", "Model Name: Alpha", "model B"] = "Alpha" := by
  have h := claim5_first_match ⟨"Model Name", ["model name", "model"]⟩
    ["junk line"] "Model Name: Alpha" ["model B"] [] "model name" ["model"]
    rfl (by simp) (by decide) (by decide)
  exact ⟨h.1, h.2.trans (by decide)⟩

/-- C6: for distinct configured keys, the result record has exactly one entry
per configured spec, in configuration order, and the summary is the
newline-join of `"<key>: <value>"` in that same order. -/
theorem claim6_result_shape (specs : List FieldSpec) (lines : List String)
    (hnd : (specs.map FieldSpec.key).Nodup) :
    fieldsOf specs lines = specs.map (fun s => (s.key, extractFieldValue s lines)) ∧
    fullTextOf specs lines = String.intercalate "\n"
      (specs.map (fun s => s.key ++ ": " ++ extractFieldValue s lines)) := by
  have hf := fieldsOf_eq specs lines hnd
  refine ⟨hf, ?_⟩
  unfold fullTextOf
  rw [hf]
  congr 1
  apply List.map_congr_left
  intro s hs
  rw [recordGet_map_key lines specs hnd s hs]

/-- C6 (witness): the hardcoded three-field configuration on an empty line
sequence yields one entry per spec in order and the corresponding summary. -/
theorem claim6_witness :
    fieldsOf importantFields [] =
      importantFields.map (fun s => (s.key, extractFieldValue s [])) ∧
    fullTextOf importantFields [] = String.intercalate "\n"
      (importantFields.map (fun s => s.key ++ ": " ++ extractFieldValue s [])) :=
  claim6_result_shape importantFields [] (by decide)

/-- C7: the line normalizer is total: on any raw text it yields the newline
segments trimmed, with empty results discarded — so no output line is empty,
every output line is trimmed, and the surviving segments keep their original
relative order (the output is a sublist of the trimmed segments). -/
theorem claim7_normalizer (raw : String) :
    (∀ l ∈ linesOf raw, l ≠ "" ∧ trimStr l = l) ∧
    (linesOf raw).Sublist ((splitNl raw.data).map (fun seg => String.mk (trimChars seg))) := by
  constructor
  · intro l hl
    unfold linesOf at hl
    have hmem := List.mem_filter.mp hl
    constructor
    · intro he
      rw [he] at hmem
      simp [String.length] at hmem
    · obtain ⟨seg, _, hlq⟩ := List.mem_map.mp hmem.1
      rw [← hlq, trimStr_mk, trimChars_idem]
  · exact List.filter_sublist _

/-- C8: a field none of whose patterns occurs (case-insensitively) in any
line resolves to the `"Not found"` sentinel — a normal outcome, and on empty
raw text the line sequence is empty and every field resolves to it. -/
theorem claim8_no_match_not_found (spec : FieldSpec) (lin : List String)
    (h : ∀ l ∈ lin, ∀ q ∈ spec.patterns, strIncludes (lowerStr l) q = false) :
    extractFieldValue spec lin = "Not found" ∧
    linesOf "" = [] ∧
    (∀ s : FieldSpec, extractFieldValue s (linesOf "") = "Not found") := by
  refine ⟨?_, rfl, fun s => rfl⟩
  unfold extractFieldValue
  apply extractLoop_none
  intro x hx
  unfold matchPattern
  rw [List.find?_eq_none]
  intro q hq
  simp [h x hx q hq]

/-- C8 (witness): Scenario C — `["Random text only"]` contains neither
`"serial"` nor `"s/n"`, so Serial Number is `"Not found"`. -/
theorem claim8_witness :
    extractFieldValue ⟨"Serial Number", ["serial", "s/n"]⟩ ["Random text only"]
      = "Not found" :=
  (claim8_no_match_not_found ⟨"Serial Number", ["serial", "s/n"]⟩
    ["Random text only"] (by decide)).1

/-- C9: the sentinel is the literal string `"Not found"`, and an input whose
matching line strips to exactly that text yields a found value identical to
the sentinel, indistinguishable from a genuine miss in the record. -/
theorem claim9_sentinel_collision :
    strIncludes (lowerStr "Model: Not found") "model" = true ∧
    extractFieldValue ⟨"Model Name", ["model"]⟩ ["Model: Not found"] = "Not found" ∧
    extractFieldValue ⟨"Model Name", ["model"]⟩ ["unrelated text"] = "Not found" ∧
    recordGet (fieldsOf [⟨"Model Name", ["model"]⟩] ["Model: Not found"]) "Model Name"
      = "Not found" := by decide

/-- C10: extraction is deterministic — two runs on identical `(specs,
rawText)` inputs produce identical record and summary (the engine is a pure
function of its inputs). -/
theorem claim10_deterministic (specs : List FieldSpec) (raw : String)
    (r1 r2 : List (String × String) × String)
    (h1 : r1 = extract specs raw) (h2 : r2 = extract specs raw) :
    r1 = r2 :=
  h1.trans h2.symm

/-- C10 (witness): two runs on the hardcoded configuration and a concrete
raw text coincide. -/
theorem claim10_witness :
    extract importantFields "Model: X" = extract importantFields "Model: X" :=
  claim10_deterministic importantFields "Model: X" _ _ rfl rfl

end OCRExtract
